import Mathlib

/-!
Verification of the decision-funnel core of the weather-prediction agent.

The development shallowly embeds the Python functions of
`agents/application/executor.py`, `agents/application/trade.py` and
`agents/polymarket/gamma.py`:

* pure functions (`divide_list`, `retain_keys`, `estimate_tokens`,
  `format_trade_prompt_for_execution`) become Lean functions over `List`,
  `Nat`, `Int` and `Rat`;
* Python runtime errors (`ZeroDivisionError`, `ValueError` from a zero
  `range` step, `IndexError`, HTTP errors) become `Option`/`Except`
  results, with `none`/`.error` marking the raised exception;
* external collaborators (the LLM gateway, the vector retrieval store and
  the market catalogue) are abstract function fields of explicit model
  structures, per the external-interface table of the design document;
* Python `float` arithmetic is modelled by exact rationals; the one
  concrete product the design fixes (`0.15 * 200.0 = 30.0`) is exact in
  IEEE double precision as well, so no rounding behaviour is lost there.
-/

/-- `math.ceil(a / b)` for integer `a`, `b` (`b ≠ 0`): exact rational
ceiling, via floor division `Int.fdiv` (which matches Python `//`). -/
def pyCeilDiv (a b : Int) : Int := -((-a).fdiv b)

/-- Python `range(0, stop, step)` for `stop ≥ 0` and `step ≠ 0` (the
`step = 0` `ValueError` is handled by the caller).  A negative `step`
with `0 ≤ stop` yields the empty range. -/
def pyRange (stop : Nat) (step : Int) : List Nat :=
  if step ≤ 0 then []
  else (List.range ((stop + step.toNat - 1) / step.toNat)).map (· * step.toNat)

/-- `Executor.divide_list` (executor.py lines 85-90):

    sublist_size = math.ceil(len(original_list) / i)
    return [original_list[j:j+sublist_size]
            for j in range(0, len(original_list), sublist_size)]

`none` models a raised exception: `ZeroDivisionError` when `i = 0`, and
`ValueError` (`range() arg 3 must not be zero`) when `sublist_size = 0`,
which happens in particular for every empty `original_list` with `i ≠ 0`. -/
def divide_list {α : Type} (original_list : List α) (i : Int) :
    Option (List (List α)) :=
  if i = 0 then none
  else
    let sublist_size : Int := pyCeilDiv (original_list.length : Int) i
    if sublist_size = 0 then none
    else some ((pyRange original_list.length sublist_size).map
      (fun j => (original_list.drop j).take sublist_size.toNat))

example : divide_list [1, 2, 3, 4, 5, 6] (4 : Int) = some [[1, 2], [3, 4], [5, 6]] := by decide
example : divide_list ([] : List Nat) (2 : Int) = none := by decide
example : divide_list ([] : List Nat) (1 : Int) = none := by decide
example : divide_list [1, 2] (0 : Int) = none := by decide
example : divide_list [1, 2, 3] (-1 : Int) = some [] := by decide
example : divide_list [1, 2, 3] (-10 : Int) = none := by decide
example : divide_list [1] (3 : Int) = some [[1]] := by decide
example : divide_list [1, 2, 3] (3 : Int) = some [[1], [2], [3]] := by decide

lemma pyCeilDiv_natCast (a n : Nat) (hn : 0 < n) :
    pyCeilDiv (a : Int) (n : Int) = (((a + n - 1) / n : Nat) : Int) := by
  obtain ⟨m, rfl⟩ : ∃ m, n = m + 1 := ⟨n - 1, by omega⟩
  cases a with
  | zero =>
    have h0 : pyCeilDiv ((0 : Nat) : Int) ((m + 1 : Nat) : Int) = 0 := by
      simp [pyCeilDiv, Int.zero_fdiv]
    rw [h0]
    have h5 : (0 + (m + 1) - 1) / (m + 1) = 0 := Nat.div_eq_of_lt (by omega)
    rw [h5]
    simp
  | succ b =>
    have h1 : (-(((b + 1 : Nat)) : Int)) = Int.negSucc b := by
      rw [Int.negSucc_eq]
      push_cast
      ring
    have h2 : (((m + 1 : Nat)) : Int) = Int.ofNat (m + 1) := rfl
    have h3 : (Int.negSucc b).fdiv (Int.ofNat (m + 1)) = Int.negSucc (b / (m + 1)) := rfl
    rw [pyCeilDiv, h1, h2, h3, Int.negSucc_eq]
    have h4 : (b + 1 + (m + 1) - 1) / (m + 1) = b / (m + 1) + 1 := by
      have : b + 1 + (m + 1) - 1 = b + (m + 1) := by omega
      rw [this, Nat.add_div_right _ (by omega)]
    rw [h4]
    push_cast
    ring

lemma pyRange_length (stop s : Nat) (hs : 0 < s) :
    (pyRange stop (s : Int)).length = (stop + s - 1) / s := by
  have h1 : ¬ ((s : Int) ≤ 0) := by
    have : (0 : Int) < (s : Int) := by exact_mod_cast hs
    omega
  simp [pyRange, h1]

lemma pyRange_eq_cons (stop s : Nat) (hs : 0 < s) (hstop : 0 < stop) :
    pyRange stop (s : Int) = 0 :: (pyRange (stop - s) (s : Int)).map (· + s) := by
  have h1 : ¬ ((s : Int) ≤ 0) := by
    have : (0 : Int) < (s : Int) := by exact_mod_cast hs
    omega
  rw [pyRange, pyRange, if_neg h1, if_neg h1]
  have hts : ((s : Int)).toNat = s := Int.toNat_natCast s
  rw [hts]
  have hc : (stop + s - 1) / s = (stop - s + s - 1) / s + 1 := by
    rcases le_or_lt stop s with h | h
    · have h1' : stop - s = 0 := by omega
      rw [h1']
      have e1 : (0 + s - 1) / s = 0 := Nat.div_eq_of_lt (by omega)
      have e2 : (stop + s - 1) / s = 1 := by
        have h2' : stop + s - 1 = (stop - 1) + s := by omega
        rw [h2', Nat.add_div_right _ hs, Nat.div_eq_of_lt (by omega)]
      rw [e1, e2]
    · have h2' : stop + s - 1 = (stop - s + s - 1) + s := by omega
      rw [h2', Nat.add_div_right _ hs]
  rw [hc, List.range_succ_eq_map]
  simp [List.map_map, Function.comp, Nat.succ_mul]

lemma join_pyRange_chunks {α : Type} (s : Nat) (hs : 0 < s) :
    ∀ (n : Nat) (l : List α), l.length = n →
      ((pyRange l.length (s : Int)).map (fun j => (l.drop j).take s)).flatten = l := by
  intro n
  induction n using Nat.strongRecOn with
  | ind n ih =>
    intro l hl
    cases l with
    | nil =>
      have h0 : (0 + s - 1) / s = 0 := Nat.div_eq_of_lt (by omega)
      have h1 : ¬ ((s : Int) ≤ 0) := by
        have : (0 : Int) < (s : Int) := by exact_mod_cast hs
        omega
      simp [pyRange, h1, h0]
    | cons a t =>
      have hlen : 0 < (a :: t).length := by simp
      rw [pyRange_eq_cons _ s hs hlen]
      rw [List.map_cons, List.map_map, List.flatten_cons]
      have htail : ((pyRange ((a :: t).length - s) (s : Int)).map
          ((fun j => ((a :: t).drop j).take s) ∘ (· + s))) =
          (pyRange ((a :: t).drop s).length (s : Int)).map
            (fun j => (((a :: t).drop s).drop j).take s) := by
        rw [List.length_drop]
        apply List.map_congr_left
        intro j _
        simp only [Function.comp]
        rw [List.drop_drop]
        congr 2
        omega
      rw [htail]
      have hlt : ((a :: t).drop s).length < n := by
        rw [List.length_drop]
        omega
      rw [ih _ hlt _ rfl]
      simp

lemma divide_list_eq_of_pos {α : Type} (l : List α) (n : Int)
    (hl : l ≠ []) (hn : 1 ≤ n) :
    divide_list l n =
      some ((pyRange l.length (((l.length + n.toNat - 1) / n.toNat : Nat) : Int)).map
        (fun j => (l.drop j).take ((l.length + n.toNat - 1) / n.toNat))) := by
  have hnN : 0 < n.toNat := by omega
  have hcast : ((n.toNat : Nat) : Int) = n := Int.toNat_of_nonneg (by omega)
  have hlen : 0 < l.length := List.length_pos.mpr hl
  have hs : 0 < (l.length + n.toNat - 1) / n.toNat :=
    Nat.div_pos (by omega) hnN
  have hceil : pyCeilDiv (l.length : Int) n =
      (((l.length + n.toNat - 1) / n.toNat : Nat) : Int) := by
    rw [← hcast]
    exact pyCeilDiv_natCast l.length n.toNat hnN
  rw [divide_list, if_neg (by omega : ¬ n = 0)]
  simp only [hceil]
  rw [if_neg (by exact_mod_cast hs.ne' : ¬ (((l.length + n.toNat - 1) / n.toNat : Nat) : Int) = 0)]
  rw [Int.toNat_natCast]


/-- C1 (chunk completeness): for every non-empty list and every integer
group count `n ≥ 1`, `divide_list` returns normally and concatenating the
returned sublists yields the original list exactly — no element is
dropped or duplicated and the order is preserved. -/
theorem divide_list_concat_complete {α : Type} (l : List α) (n : Int)
    (hl : l ≠ []) (hn : 1 ≤ n) :
    ∃ cs, divide_list l n = some cs ∧ cs.flatten = l := by
  refine ⟨_, divide_list_eq_of_pos l n hl hn, ?_⟩
  have hnN : 0 < n.toNat := by omega
  have hlen : 0 < l.length := List.length_pos.mpr hl
  have hs : 0 < (l.length + n.toNat - 1) / n.toNat :=
    Nat.div_pos (by omega) hnN
  exact join_pyRange_chunks _ hs _ l rfl

/-- C1 witness: `divide_list [1,2,3] 2 = some [[1,2],[3]]` and the chunks
concatenate back to `[1,2,3]`. -/
theorem divide_list_concat_complete_witness :
    ∃ cs, divide_list [1, 2, 3] (2 : Int) = some cs ∧ cs.flatten = [1, 2, 3] :=
  divide_list_concat_complete [1, 2, 3] 2 (by decide) (by decide)

/-- C7 counterexample: the list `[1,2,3,4,5,6]` with `group_count = 4`
satisfies `len(A) ≥ n`, yet `divide_list` returns 3 sublists, not 4
(`sublist_size = ceil(6/4) = 2` gives `ceil(6/2) = 3` chunks). -/
theorem divide_list_count_counterexample :
    (6 : Nat) ≥ 4 ∧
    divide_list [1, 2, 3, 4, 5, 6] (4 : Int) = some [[1, 2], [3, 4], [5, 6]] ∧
    ([[1, 2], [3, 4], [5, 6]] : List (List Nat)).length ≠ 4 := by decide

/-- Chunk-count arithmetic: with sublist size `s = ceil(L / nN)`, the
number of produced chunks `ceil(L / s)` is at most `nN` and at most `L`. -/
lemma ceil_chunk_count_le (L nN : Nat) (hL : 0 < L) (hn : 0 < nN) :
    (L + ((L + nN - 1) / nN) - 1) / ((L + nN - 1) / nN) ≤ nN ∧
    (L + ((L + nN - 1) / nN) - 1) / ((L + nN - 1) / nN) ≤ L := by
  set s := (L + nN - 1) / nN with hs_def
  have hs : 0 < s := Nat.div_pos (by omega) hn
  have hdm := Nat.div_add_mod (L + nN - 1) nN
  have hmlt := Nat.mod_lt (L + nN - 1) hn
  rw [← hs_def] at hdm
  have hns : L ≤ nN * s := by omega
  constructor
  · have hexp : (nN + 1) * s = nN * s + s := by ring
    have h1 : L + s - 1 < (nN + 1) * s := by omega
    have h2 : (L + s - 1) / s < nN + 1 := (Nat.div_lt_iff_lt_mul hs).mpr h1
    omega
  · have hexp : (L + 1) * s = L * s + s := by ring
    have hls : L ≤ L * s := Nat.le_mul_of_pos_right _ hs
    have h1 : L + s - 1 < (L + 1) * s := by omega
    have h2 : (L + s - 1) / s < L + 1 := (Nat.div_lt_iff_lt_mul hs).mpr h1
    omega

/-- C7 (amended): for every non-empty collection and every integer
`n ≥ 1`, `divide_list` returns **at most** `n` sublists (not exactly `n`,
even when `len(A) ≥ n`), and also at most `len(A)` sublists. -/
theorem divide_list_count_le {α : Type} (l : List α) (n : Int)
    (hl : l ≠ []) (hn : 1 ≤ n) :
    ∃ cs, divide_list l n = some cs ∧
      (cs.length : Int) ≤ n ∧ cs.length ≤ l.length := by
  refine ⟨_, divide_list_eq_of_pos l n hl hn, ?_⟩
  have hnN : 0 < n.toNat := by omega
  have hlen : 0 < l.length := List.length_pos.mpr hl
  have hs : 0 < (l.length + n.toNat - 1) / n.toNat :=
    Nat.div_pos (by omega) hnN
  rw [List.length_map, pyRange_length _ _ hs]
  have hcount := ceil_chunk_count_le l.length n.toNat hlen hnN
  omega

/-- C7 witness for the amended claim, at `A = [1,...,6]`, `n = 4`. -/
theorem divide_list_count_le_witness :
    ∃ cs, divide_list [1, 2, 3, 4, 5, 6] (4 : Int) = some cs ∧
      (cs.length : Int) ≤ 4 ∧ cs.length ≤ [1, 2, 3, 4, 5, 6].length :=
  divide_list_count_le [1, 2, 3, 4, 5, 6] 4 (by decide) (by decide)

/-- C8 counterexample: on the empty collection with `group_count = 1`,
`divide_list` raises (`range() arg 3 must not be zero`, since
`sublist_size = ceil(0/1) = 0`): it neither returns the whole collection
as a single chunk nor an empty sequence of chunks. -/
theorem divide_list_edge_counterexample :
    divide_list ([] : List Nat) (1 : Int) = none ∧
    divide_list ([] : List Nat) (1 : Int) ≠ some [[]] ∧
    divide_list ([] : List Nat) (1 : Int) ≠ some [] := by decide

/-- C8 (amended): for every **non-empty** collection, `group_count = 1`
returns the whole collection as a single chunk; for an **empty**
collection, `divide_list` raises an exception for every integer
`group_count` (`ZeroDivisionError` for `0`, otherwise a `ValueError`
from the zero `range` step) instead of returning an empty sequence. -/
theorem divide_list_edge_cases (α : Type) :
    (∀ l : List α, l ≠ [] → divide_list l (1 : Int) = some [l]) ∧
    (∀ i : Int, divide_list ([] : List α) i = none) := by
  constructor
  · intro l hl
    rw [divide_list_eq_of_pos l 1 hl (by omega)]
    have hlen : 0 < l.length := List.length_pos.mpr hl
    have h1 : (l.length + (1 : Int).toNat - 1) / (1 : Int).toNat = l.length := by
      simp
    rw [h1]
    have h2 : pyRange l.length (l.length : Int) = [0] := by
      rw [pyRange]
      have hne : ¬ ((l.length : Int) ≤ 0) := by
        have : (0 : Int) < (l.length : Int) := by exact_mod_cast hlen
        omega
      rw [if_neg hne, Int.toNat_natCast]
      have hc : (l.length + l.length - 1) / l.length = 1 := by
        have hlt : l.length + l.length - 1 < 2 * l.length := by omega
        have hge : l.length ≤ l.length + l.length - 1 := by omega
        have h3 : (l.length + l.length - 1) / l.length < 2 := by
          rw [Nat.div_lt_iff_lt_mul hlen]
          omega
        have h4 : 1 ≤ (l.length + l.length - 1) / l.length := by
          rw [Nat.le_div_iff_mul_le hlen]
          omega
        omega
      rw [hc]
      simp [List.range_succ]
    rw [h2]
    simp
  · intro i
    rw [divide_list]
    by_cases hi : i = 0
    · rw [if_pos hi]
    · rw [if_neg hi]
      have h0 : pyCeilDiv ((List.length ([] : List α)) : Int) i = 0 := by
        simp [pyCeilDiv, Int.zero_fdiv]
      simp only [h0]
      rfl

/-- C8 witness: a non-empty list with `group_count = 1` comes back whole;
the empty list raises for `group_count = 3`. -/
theorem divide_list_edge_cases_witness :
    divide_list [5] (1 : Int) = some [[5]] ∧
    divide_list ([] : List Nat) (3 : Int) = none :=
  ⟨(divide_list_edge_cases Nat).1 [5] (by decide),
   (divide_list_edge_cases Nat).2 3⟩

/-- A Python JSON-like value: a scalar (atom), a dict (association list
of string keys, in insertion order, as Python dicts are ordered), or a
list. -/
inductive PyVal (β : Type) : Type where
  | atom : β → PyVal β
  | dict : List (String × PyVal β) → PyVal β
  | list : List (PyVal β) → PyVal β

mutual

/-- `retain_keys` (executor.py lines 20-30):

    if isinstance(data, dict):
        return {key: retain_keys(value, keys_to_retain)
                for key, value in data.items() if key in keys_to_retain}
    elif isinstance(data, list):
        return [retain_keys(item, keys_to_retain) for item in data]
    else:
        return data

The dict comprehension is rendered by the recursive helper
`retainPairs`, the list comprehension by `retainItems`. -/
def retain_keys {β : Type} : PyVal β → List String → PyVal β
  | .dict kvs, keys_to_retain => .dict (retainPairs kvs keys_to_retain)
  | .list items, keys_to_retain => .list (retainItems items keys_to_retain)
  | .atom b, _ => .atom b

/-- The dict comprehension of `retain_keys`: keep a pair iff its key is
in the retained set, recursing on the value. -/
def retainPairs {β : Type} :
    List (String × PyVal β) → List String → List (String × PyVal β)
  | [], _ => []
  | (key, value) :: rest, keys_to_retain =>
    if key ∈ keys_to_retain then
      (key, retain_keys value keys_to_retain) :: retainPairs rest keys_to_retain
    else retainPairs rest keys_to_retain

/-- The list comprehension of `retain_keys`: recurse on every item. -/
def retainItems {β : Type} : List (PyVal β) → List String → List (PyVal β)
  | [], _ => []
  | item :: rest, keys_to_retain =>
    retain_keys item keys_to_retain :: retainItems rest keys_to_retain

end

example :
    retain_keys (PyVal.dict [("a", .atom (1 : Int)),
      ("b", .dict [("a", .atom 2), ("c", .atom 3)])]) ["a"]
      = PyVal.dict [("a", .atom 1)] := rfl

mutual

/-- `retain_keys` is idempotent: everything surviving one pass (keys and
structure, at every nesting depth) is left unchanged by a second pass. -/
theorem retain_keys_idem {β : Type} (v : PyVal β) (keys : List String) :
    retain_keys (retain_keys v keys) keys = retain_keys v keys := by
  match v with
  | .atom b => rfl
  | .dict kvs => rw [retain_keys, retain_keys, retainPairs_idem kvs keys]
  | .list items => rw [retain_keys, retain_keys, retainItems_idem items keys]

theorem retainPairs_idem {β : Type} (kvs : List (String × PyVal β))
    (keys : List String) :
    retainPairs (retainPairs kvs keys) keys = retainPairs kvs keys := by
  match kvs with
  | [] => rfl
  | (key, value) :: rest =>
    by_cases h : key ∈ keys
    · rw [retainPairs, if_pos h, retainPairs, if_pos h,
        retain_keys_idem value keys, retainPairs_idem rest keys]
    · have hr : retainPairs ((key, value) :: rest) keys = retainPairs rest keys := by
        rw [retainPairs, if_neg h]
      rw [hr, retainPairs_idem rest keys]

theorem retainItems_idem {β : Type} (items : List (PyVal β))
    (keys : List String) :
    retainItems (retainItems items keys) keys = retainItems items keys := by
  match items with
  | [] => rfl
  | item :: rest =>
    rw [retainItems, retainItems, retain_keys_idem item keys,
      retainItems_idem rest keys]

end

/-- Keys surviving `retainPairs` are always members of the allow-list. -/
lemma retainPairs_keys_mem {β : Type} (kvs : List (String × PyVal β))
    (keys : List String) :
    ∀ kv ∈ retainPairs kvs keys, kv.1 ∈ keys := by
  induction kvs with
  | nil => intro kv h; simp [retainPairs] at h
  | cons p rest ih =>
    obtain ⟨key, value⟩ := p
    intro kv hmem
    rw [retainPairs] at hmem
    by_cases h : key ∈ keys
    · rw [if_pos h] at hmem
      rcases List.mem_cons.mp hmem with h1 | h1
      · rw [h1]; exact h
      · exact ih kv h1
    · rw [if_neg h] at hmem
      exact ih kv hmem

lemma retainItems_eq_map {β : Type} (items : List (PyVal β)) (keys : List String) :
    retainItems items keys = items.map (fun v => retain_keys v keys) := by
  induction items with
  | nil => rfl
  | cons item rest ih => rw [retainItems, List.map_cons, ih]

lemma retainPairs_eq_filterMap {β : Type} (kvs : List (String × PyVal β))
    (keys : List String) :
    retainPairs kvs keys = kvs.filterMap
      (fun kv => if kv.1 ∈ keys then some (kv.1, retain_keys kv.2 keys) else none) := by
  induction kvs with
  | nil => rfl
  | cons p rest ih =>
    obtain ⟨key, value⟩ := p
    by_cases h : key ∈ keys <;>
      simp [retainPairs, List.filterMap_cons, h, ih]

/-- C9 counterexample: `retain_keys({"a": 1, "b": {"a": 2, "c": 3}}, {"a"})`
yields `{"a": 1}` — the key `"b"` is itself not in the allow-list, so the
whole `"b"` subtree is dropped; the output is **not** the claimed
`{"a": 1, "b": {"a": 2}}`. -/
theorem retain_keys_example_counterexample :
    retain_keys (PyVal.dict [("a", .atom (1 : Int)),
        ("b", .dict [("a", .atom 2), ("c", .atom 3)])]) ["a"]
      = PyVal.dict [("a", .atom 1)] ∧
    retain_keys (PyVal.dict [("a", .atom (1 : Int)),
        ("b", .dict [("a", .atom 2), ("c", .atom 3)])]) ["a"]
      ≠ PyVal.dict [("a", .atom 1), ("b", .dict [("a", .atom 2)])] := by
  constructor
  · rfl
  · intro h
    have h2 : PyVal.dict [("a", PyVal.atom (1 : Int))]
        = PyVal.dict [("a", .atom 1), ("b", .dict [("a", .atom 2)])] := h
    injection h2 with h3
    have h4 := congrArg List.length h3
    simp at h4

/-- C9 (amended): `retain_keys` preserves structure at every nesting
depth — scalars pass through unchanged, lists are transformed
element-wise, dictionaries keep only the allow-listed keys with values
transformed recursively (so every surviving key is allow-listed, and a
second pass changes nothing); in particular
`retain_keys({"a": 1, "b": {"a": 2, "c": 3}}, {"a"})` yields `{"a": 1}`
(the spec's expected value `{"a": 1, "b": {"a": 2}}` would require `"b"`
in the allow-list). -/
theorem retain_keys_recursion :
    (∀ (β : Type) (b : β) (keys : List String),
        retain_keys (.atom b) keys = .atom b) ∧
    (∀ (β : Type) (items : List (PyVal β)) (keys : List String),
        retain_keys (.list items) keys
          = .list (items.map (fun v => retain_keys v keys))) ∧
    (∀ (β : Type) (kvs : List (String × PyVal β)) (keys : List String),
        retain_keys (.dict kvs) keys = .dict (kvs.filterMap
          (fun kv => if kv.1 ∈ keys then some (kv.1, retain_keys kv.2 keys) else none))) ∧
    (∀ (β : Type) (kvs : List (String × PyVal β)) (keys : List String),
        ∀ kv ∈ retainPairs kvs keys, kv.1 ∈ keys) ∧
    (∀ (β : Type) (v : PyVal β) (keys : List String),
        retain_keys (retain_keys v keys) keys = retain_keys v keys) ∧
    retain_keys (PyVal.dict [("a", .atom (1 : Int)),
        ("b", .dict [("a", .atom 2), ("c", .atom 3)])]) ["a"]
      = PyVal.dict [("a", .atom 1)] := by
  refine ⟨?_, ?_, ?_, ?_, ?_, rfl⟩
  · intro β b keys; rfl
  · intro β items keys
    rw [retain_keys, retainItems_eq_map]
  · intro β kvs keys
    rw [retain_keys, retainPairs_eq_filterMap]
  · intro β kvs keys
    exact retainPairs_keys_mem kvs keys
  · intro β v keys
    exact retain_keys_idem v keys

/-- Python `best_trade.split(",")`: split on every comma, keeping empty
fields (so the result is always non-empty). -/
def splitOnComma : List Char → List (List Char)
  | [] => [[]]
  | c :: rest =>
    if c = ',' then [] :: splitOnComma rest
    else
      match splitOnComma rest with
      | [] => [[c]]
      | f :: fs => (c :: f) :: fs

example : splitOnComma "price:0.62,\nsize:0.15,\nside:BUY,".toList
    = ["price:0.62".toList, "\nsize:0.15".toList, "\nside:BUY".toList, []] := by decide

/-- Attempt to match the regex `\d+\.\d+` at the very start of `cs`: the
start must be a digit, the maximal digit run must be followed by `'.'`
and then at least one digit.  (Backtracking `\d+` to less than the
maximal run cannot help: the character before the `'.'` position would
still be a digit, not a `'.'`.) -/
def matchFloatAt (cs : List Char) : Option (List Char × List Char) :=
  match cs with
  | [] => none
  | c :: _ =>
    if c.isDigit then
      match cs.dropWhile Char.isDigit with
      | '.' :: rest2 =>
        if (rest2.takeWhile Char.isDigit).isEmpty then none
        else some (cs.takeWhile Char.isDigit, rest2.takeWhile Char.isDigit)
      | _ => none
    else none

/-- The first match of the regex `\d+\.\d+` in a character list, as the
pair (integer digits, fractional digits) — the semantics of
`re.findall("\d+\.\d+", text)[0]`.  Matching is leftmost: try each
start position from the left. -/
def findFloat : List Char → Option (List Char × List Char)
  | [] => none
  | c :: rest => (matchFloatAt (c :: rest)).orElse (fun _ => findFloat rest)

example : findFloat "\nsize:0.15".toList = some (['0'], ['1', '5']) := by decide
example : findFloat "1.2.3".toList = some (['1'], ['2']) := by decide
example : findFloat "12..5 a7.89".toList = some (['7'], ['8', '9']) := by decide
example : findFloat "\nside:BUY".toList = none := by decide

/-- Decimal value of a digit run. -/
def digitsVal (ds : List Char) : Nat :=
  ds.foldl (fun a c => 10 * a + (c.toNat - 48)) 0

/-- `float(size)` for the matched string `ds ++ "." ++ ds2`, as an exact
rational. -/
def pyFloat (ds ds2 : List Char) : Rat :=
  (digitsVal ds : Rat) + (digitsVal ds2 : Rat) / ((10 : Rat) ^ ds2.length)

/-- `Executor.format_trade_prompt_for_execution` (executor.py lines
179-184):

    data = best_trade.split(",")
    size = re.findall("\d+\.\d+", data[1])[0]
    usdc_balance = self.polymarket.get_usdc_balance()
    return float(size) * usdc_balance

`none` models the raised `IndexError`: when `data` has no second field,
or when `findall` returns no match.  The balance returned by the wallet
collaborator is passed as the parameter `usdc_balance`. -/
def format_trade_prompt_for_execution (best_trade : String) (usdc_balance : Rat) :
    Option Rat :=
  let data := splitOnComma best_trade.toList
  match data[1]? with
  | none => none
  | some field2 =>
    match findFloat field2 with
    | none => none
    | some (ds, ds2) => some (pyFloat ds ds2 * usdc_balance)

example :
    format_trade_prompt_for_execution "price:0.62,\nsize:0.15,\nside:BUY," 200 = some 30 := by
  have h1 : (splitOnComma ("price:0.62,\nsize:0.15,\nside:BUY,".toList))[1]?
      = some "\nsize:0.15".toList := by decide
  have h2 : findFloat "\nsize:0.15".toList = some (['0'], ['1', '5']) := by decide
  have h3 : digitsVal ['0'] = 0 := by decide
  have h4 : digitsVal ['1', '5'] = 15 := by decide
  simp only [format_trade_prompt_for_execution, h1, h2]
  rw [pyFloat, h3, h4]
  norm_num

/-- A non-empty run of decimal digits. -/
def IsDigitRun (ds : List Char) : Prop := ds ≠ [] ∧ ∀ c ∈ ds, c.isDigit

/-- The regex pattern `\d+\.\d+` occurs somewhere in `cs`: some non-empty
digit run, a dot, and another non-empty digit run, as a contiguous
substring.  This is the specification-side notion of "the numeric
pattern is present" in a piece of text. -/
def hasFloatPattern (cs : List Char) : Prop :=
  ∃ p ds ds2 q, IsDigitRun ds ∧ IsDigitRun ds2 ∧ cs = p ++ ds ++ '.' :: (ds2 ++ q)

lemma dropWhile_append_of_all (p : Char → Bool) (ds l : List Char)
    (h : ∀ c ∈ ds, p c) : (ds ++ l).dropWhile p = l.dropWhile p := by
  induction ds with
  | nil => rfl
  | cons d rest ih =>
    rw [List.cons_append, List.dropWhile_cons_of_pos (h d (by simp))]
    exact ih (fun c hc => h c (by simp [hc]))

lemma matchFloatAt_some_pattern (cs : List Char) (r : List Char × List Char)
    (h : matchFloatAt cs = some r) : hasFloatPattern cs := by
  match cs with
  | [] => simp [matchFloatAt] at h
  | c :: rest =>
    rw [matchFloatAt] at h
    split at h
    case isFalse => exact absurd h (by simp)
    case isTrue hdig =>
      split at h
      case h_2 => exact absurd h (by simp)
      case h_1 rest2 heq =>
        split at h
        case isTrue => exact absurd h (by simp)
        case isFalse hemp =>
          refine ⟨[], (c :: rest).takeWhile Char.isDigit,
            rest2.takeWhile Char.isDigit, rest2.dropWhile Char.isDigit,
            ⟨?_, fun x hx => List.mem_takeWhile_imp hx⟩,
            ⟨?_, fun x hx => List.mem_takeWhile_imp hx⟩, ?_⟩
          · rw [List.takeWhile_cons_of_pos hdig]
            simp
          · intro hnil
            rw [hnil] at hemp
            exact hemp rfl
          · rw [List.nil_append, List.takeWhile_append_dropWhile Char.isDigit rest2,
              ← heq, List.takeWhile_append_dropWhile Char.isDigit (c :: rest)]

lemma hasFloatPattern_cons (c : Char) (cs : List Char)
    (h : hasFloatPattern cs) : hasFloatPattern (c :: cs) := by
  obtain ⟨p, ds, ds2, q, h1, h2, rfl⟩ := h
  exact ⟨c :: p, ds, ds2, q, h1, h2, rfl⟩

lemma findFloat_some_pattern (cs : List Char) :
    ∀ r, findFloat cs = some r → hasFloatPattern cs := by
  induction cs with
  | nil => intro r h; simp [findFloat] at h
  | cons c rest ih =>
    intro r h
    rw [findFloat] at h
    cases hm : matchFloatAt (c :: rest) with
    | some v =>
      exact matchFloatAt_some_pattern _ v hm
    | none =>
      rw [hm] at h
      have h2 : findFloat rest = some r := h
      exact hasFloatPattern_cons c rest (ih r h2)

lemma matchFloatAt_at_pattern (ds ds2 q : List Char)
    (hds : IsDigitRun ds) (hds2 : IsDigitRun ds2) :
    ∃ v, matchFloatAt (ds ++ '.' :: (ds2 ++ q)) = some v := by
  obtain ⟨hne, hdig⟩ := hds
  obtain ⟨hne2, hdig2⟩ := hds2
  cases ds with
  | nil => exact absurd rfl hne
  | cons d ds' =>
    have hd : d.isDigit := hdig d (by simp)
    have hdrop : (d :: (ds' ++ '.' :: (ds2 ++ q))).dropWhile Char.isDigit
        = '.' :: (ds2 ++ q) := by
      rw [← List.cons_append,
        dropWhile_append_of_all Char.isDigit (d :: ds') _ hdig,
        List.dropWhile_cons_of_neg (by decide)]
    have hemp : ¬ (((ds2 ++ q).takeWhile Char.isDigit).isEmpty = true) := by
      cases ds2 with
      | nil => exact absurd rfl hne2
      | cons e ds2' =>
        have he : e.isDigit := hdig2 e (by simp)
        rw [List.cons_append, List.takeWhile_cons_of_pos he]
        simp
    refine ⟨((d :: (ds' ++ '.' :: (ds2 ++ q))).takeWhile Char.isDigit,
      (ds2 ++ q).takeWhile Char.isDigit), ?_⟩
    rw [List.cons_append, matchFloatAt, if_pos hd]
    show (match (d :: (ds' ++ '.' :: (ds2 ++ q))).dropWhile Char.isDigit with
      | '.' :: rest2 =>
        if (rest2.takeWhile Char.isDigit).isEmpty then none
        else some ((d :: (ds' ++ '.' :: (ds2 ++ q))).takeWhile Char.isDigit,
          rest2.takeWhile Char.isDigit)
      | _ => none) = _
    rw [hdrop]
    show (if ((ds2 ++ q).takeWhile Char.isDigit).isEmpty then none
      else some ((d :: (ds' ++ '.' :: (ds2 ++ q))).takeWhile Char.isDigit,
        (ds2 ++ q).takeWhile Char.isDigit)) = _
    rw [if_neg hemp]

lemma pattern_findFloat_isSome (p ds ds2 q : List Char)
    (hds : IsDigitRun ds) (hds2 : IsDigitRun ds2) :
    (findFloat (p ++ ds ++ '.' :: (ds2 ++ q))).isSome := by
  induction p with
  | nil =>
    rw [List.nil_append]
    obtain ⟨v, hv⟩ := matchFloatAt_at_pattern ds ds2 q hds hds2
    obtain ⟨hne, hdig⟩ := hds
    cases ds with
    | nil => exact absurd rfl hne
    | cons d ds' =>
      rw [List.cons_append, findFloat, ← List.cons_append, hv]
      rfl
  | cons c p' ih =>
    rw [List.cons_append, List.cons_append, findFloat]
    cases hm : matchFloatAt (c :: ((p' ++ ds) ++ '.' :: (ds2 ++ q))) with
    | some v => rfl
    | none =>
      show (findFloat ((p' ++ ds) ++ '.' :: (ds2 ++ q))).isSome
      exact ih

lemma format_trade_example :
    format_trade_prompt_for_execution "price:0.62,\nsize:0.15,\nside:BUY," 200
      = some 30 := by
  have h1 : (splitOnComma ("price:0.62,\nsize:0.15,\nside:BUY,".toList))[1]?
      = some "\nsize:0.15".toList := by decide
  have h2 : findFloat "\nsize:0.15".toList = some (['0'], ['1', '5']) := by decide
  have h3 : digitsVal ['0'] = 0 := by decide
  have h4 : digitsVal ['1', '5'] = 15 := by decide
  simp only [format_trade_prompt_for_execution, h1, h2]
  rw [pyFloat, h3, h4]
  norm_num

/-- C5 (decision extraction): `format_trade_prompt_for_execution` locates
the decimal pattern `\d+\.\d+` in the second comma-separated field of the
decision text and returns that size times the available balance — for
`"price:0.62,\nsize:0.15,\nside:BUY,"` with balance `200.0` it returns
`30.0` — and it raises (returns no partial decision) for every input
whose second field (when it exists at all) lacks the numeric pattern. -/
theorem format_trade_extraction :
    format_trade_prompt_for_execution "price:0.62,\nsize:0.15,\nside:BUY," 200
      = some 30 ∧
    ∀ (s : String) (b : Rat),
      (∀ f2, (splitOnComma s.toList)[1]? = some f2 → ¬ hasFloatPattern f2) →
      format_trade_prompt_for_execution s b = none := by
  constructor
  · exact format_trade_example
  · intro s b habs
    simp only [format_trade_prompt_for_execution]
    cases h1 : (splitOnComma s.toList)[1]? with
    | none => rfl
    | some f2 =>
      cases h2 : findFloat f2 with
      | none => simp only [h2]
      | some r => exact absurd (findFloat_some_pattern f2 r h2) (habs f2 h1)

/-- C5 witness: the failure branch of `format_trade_extraction` applied
to the concrete patternless input `"abc,def"`. -/
theorem format_trade_extraction_witness :
    format_trade_prompt_for_execution "abc,def" 5 = none := by
  apply format_trade_extraction.2
  intro f2 h1
  have he : (splitOnComma "abc,def".toList)[1]? = some "def".toList := by decide
  rw [he] at h1
  have hf2 : f2 = "def".toList := (Option.some_inj.mp h1).symm
  subst hf2
  intro hp
  obtain ⟨p, ds, ds2, q, hds, hds2, heq⟩ := hp
  have hsome := pattern_findFloat_isSome p ds ds2 q hds hds2
  rw [← heq] at hsome
  have hnone : findFloat "def".toList = none := by decide
  rw [hnone] at hsome
  exact absurd hsome (by simp)

/-- `Executor.estimate_tokens` (executor.py lines 71-73):
`len(text) // 4` — the deliberately crude four-characters-per-token
heuristic. -/
def estimate_tokens (text : String) : Nat := text.length / 4

/-- The allow-list of keys used by the oversized branch of
`get_polymarket_llm` (executor.py lines 110-114). -/
def useful_keys : List String :=
  ["id", "questionID", "description", "liquidity", "clobTokenIds",
   "outcomes", "outcomePrices", "volume", "startDate", "endDate",
   "question", "events"]

/-- The group count the code pre-computes in the oversized branch
(executor.py line 109): `group_size = (total_tokens // token_limit) + 1`. -/
def group_size_of (total_tokens token_limit : Nat) : Nat :=
  total_tokens / token_limit + 1

/-- Modelled from the spec: the group count as the specification words
it, `ceil(estimated_tokens(serialized_payload) / token_limit)`. -/
def spec_group_count (total_tokens token_limit : Nat) : Nat :=
  (total_tokens + token_limit - 1) / token_limit

/-- The external collaborators of `Executor.get_polymarket_llm`:
`token_limit` (from the model table in `__init__`), the serializer
`prompter.prompts_polymarket` producing the combined payload text, and
`process_data_chunk` — one Text-Generation Gateway call on a pair of
(sub)collections, returning the result text. -/
structure ExecModel : Type where
  token_limit : Nat
  serialize : List (PyVal Int) → List (PyVal Int) → String
  chunkCall : List (PyVal Int) → List (PyVal Int) → String → String

/-- The chunk pairs the oversized branch iterates over (executor.py
lines 115-118): `retain_keys` on `data1`, lock-step `divide_list` with
the same group count, then `zip(cut_1, cut_2)`.  `none` models a raised
exception inside `divide_list`. -/
def oversized_call_pairs (data1 data2 : List (PyVal Int)) (group_size : Nat) :
    Option (List (List (PyVal Int) × List (PyVal Int))) :=
  match divide_list (data1.map (fun d => retain_keys d useful_keys)) (group_size : Int),
        divide_list data2 (group_size : Int) with
  | some cut_1, some cut_2 => some (cut_1.zip cut_2)
  | _, _ => none

/-- `Executor.get_polymarket_llm` (executor.py lines 92-129), with the
two catalogue collections and the user input as parameters:

* serialize both collections, estimate tokens;
* within limit (`total_tokens <= token_limit`): one gateway call on the
  full data;
* above limit: strip `data1` down to `useful_keys`, chunk both
  collections with `group_size = total_tokens // token_limit + 1`,
  issue one gateway call per `zip`ped chunk pair and join the results
  with single spaces. -/
def get_polymarket_llm (M : ExecModel) (data1 data2 : List (PyVal Int))
    (user_input : String) : Option String :=
  let total_tokens := estimate_tokens (M.serialize data1 data2)
  if total_tokens ≤ M.token_limit then
    some (M.chunkCall data1 data2 user_input)
  else
    match oversized_call_pairs data1 data2 (group_size_of total_tokens M.token_limit) with
    | none => none
    | some pairs =>
      some (" ".intercalate (pairs.map (fun cd => M.chunkCall cd.1 cd.2 user_input)))

/-- C6 counterexample: a serialized payload of 8 characters estimates to
2 tokens; with `token_limit = 1` the oversized branch is taken
(`2 > 1`), the code computes `group_size = 2 // 1 + 1 = 3`, but
`ceil(2 / 1) = 2`.  On three-element collections the two group counts
even produce observably different chunkings (3 chunk pairs versus 2). -/
theorem group_size_counterexample :
    estimate_tokens "12345678" = 2 ∧ 2 > 1 ∧
    group_size_of 2 1 = 3 ∧ spec_group_count 2 1 = 2 ∧
    group_size_of 2 1 ≠ spec_group_count 2 1 ∧
    (oversized_call_pairs [.atom 0, .atom 1, .atom 2] [.atom 3, .atom 4, .atom 5]
        (group_size_of 2 1)).map List.length = some 3 ∧
    (oversized_call_pairs [.atom 0, .atom 1, .atom 2] [.atom 3, .atom 4, .atom 5]
        (spec_group_count 2 1)).map List.length = some 2 := by
  refine ⟨rfl, by omega, rfl, rfl, by decide, rfl, rfl⟩

/-- C6 (amended): in the oversized path the group count is
`total_tokens // token_limit + 1`, which equals
`ceil(total_tokens / token_limit)` exactly when `token_limit` does not
divide `total_tokens`, and is `ceil + 1` when it does. -/
theorem group_size_characterization (total limit : Nat)
    (hl : 0 < limit) (ht : limit < total) :
    group_size_of total limit =
      (if total % limit = 0 then spec_group_count total limit + 1
       else spec_group_count total limit) := by
  have hdm := Nat.div_add_mod total limit
  have hmlt := Nat.mod_lt total hl
  by_cases h0 : total % limit = 0
  · rw [if_pos h0]
    rw [group_size_of, spec_group_count]
    have hcomm : (total / limit) * limit = limit * (total / limit) := Nat.mul_comm _ _
    have he : total + limit - 1 = (limit - 1) + (total / limit) * limit := by omega
    rw [he, Nat.add_mul_div_right _ _ hl]
    have h2 : (limit - 1) / limit = 0 := Nat.div_eq_of_lt (by omega)
    omega
  · rw [if_neg h0]
    rw [group_size_of, spec_group_count]
    have hcomm : (total / limit + 1) * limit = limit * (total / limit) + limit := by ring
    have he : total + limit - 1 = (total % limit - 1) + (total / limit + 1) * limit := by
      omega
    rw [he, Nat.add_mul_div_right _ _ hl]
    have h2 : (total % limit - 1) / limit = 0 := Nat.div_eq_of_lt (by omega)
    omega

/-- C6 witness: at `total = 5`, `limit = 2` (no exact division) the code
group count equals the spec ceiling, per `group_size_characterization`. -/
theorem group_size_characterization_witness :
    group_size_of 5 2 = (if 5 % 2 = 0 then spec_group_count 5 2 + 1
      else spec_group_count 5 2) :=
  group_size_characterization 5 2 (by decide) (by decide)

/-- A concrete model exhibiting chunk truncation: the serialized payload
has 8 characters (2 estimated tokens) against `token_limit = 1`, and the
gateway call records the lengths of its two chunk arguments. -/
def truncM : ExecModel :=
  ⟨1, fun _ _ => "12345678",
   fun d1 d2 _ => toString d1.length ++ toString d2.length⟩

/-- C10 (zip truncation, implicit): in the oversized branch the chunk
pairs are `zip(cut_1, cut_2)`, so exactly `min(len(cut_1), len(cut_2))`
gateway calls are issued and every trailing chunk of the longer cut is
silently omitted from all calls and from the joined output.  The
concrete part shows divergent chunk counts actually occur: one chunk of
`data1` against three of `data2`, with `[.atom 2]` and `[.atom 3]`
appearing in no call pair. -/
theorem zip_truncation :
    (∀ (M : ExecModel) (data1 data2 : List (PyVal Int)) (ui : String)
        (cut1 cut2 : List (List (PyVal Int))),
      M.token_limit < estimate_tokens (M.serialize data1 data2) →
      divide_list (data1.map (fun d => retain_keys d useful_keys))
          ((group_size_of (estimate_tokens (M.serialize data1 data2)) M.token_limit : Nat) : Int)
        = some cut1 →
      divide_list data2
          ((group_size_of (estimate_tokens (M.serialize data1 data2)) M.token_limit : Nat) : Int)
        = some cut2 →
      get_polymarket_llm M data1 data2 ui =
        some (" ".intercalate ((cut1.zip cut2).map
          (fun cd => M.chunkCall cd.1 cd.2 ui))) ∧
      (cut1.zip cut2).length = min cut1.length cut2.length) ∧
    (divide_list ([PyVal.atom 1, .atom 2, .atom 3] : List (PyVal Int)) (3 : Int)
        = some [[.atom 1], [.atom 2], [.atom 3]] ∧
     oversized_call_pairs [PyVal.atom 0] [.atom 1, .atom 2, .atom 3] 3
        = some [([.atom 0], [.atom 1])] ∧
     get_polymarket_llm truncM [PyVal.atom 0] [.atom 1, .atom 2, .atom 3] "q"
        = some "11") := by
  constructor
  · intro M data1 data2 ui cut1 cut2 hover h1 h2
    have hif : ¬ (estimate_tokens (M.serialize data1 data2) ≤ M.token_limit) := by
      omega
    have hp : oversized_call_pairs data1 data2
        (group_size_of (estimate_tokens (M.serialize data1 data2)) M.token_limit)
        = some (cut1.zip cut2) := by
      rw [oversized_call_pairs, h1, h2]
    constructor
    · simp only [get_polymarket_llm, if_neg hif, hp]
    · exact List.length_zip cut1 cut2
  · exact ⟨rfl, rfl, rfl⟩

/-- C10 witness: the general statement applied to the concrete
truncating model. -/
theorem zip_truncation_witness :
    get_polymarket_llm truncM [PyVal.atom 0] [.atom 1, .atom 2, .atom 3] "q" =
      some (" ".intercalate
        (([([PyVal.atom 0], [PyVal.atom 1])]).map
          (fun cd => truncM.chunkCall cd.1 cd.2 "q"))) ∧
    ([([PyVal.atom 0], [PyVal.atom 1])] : List (List (PyVal Int) × List (PyVal Int))).length
      = min 1 3 :=
  zip_truncation.1 truncM [PyVal.atom 0] [.atom 1, .atom 2, .atom 3] "q"
    [[PyVal.atom 0]] [[PyVal.atom 1], [.atom 2], [.atom 3]]
    (by decide) rfl rfl

/-- Outcome of one `Trader.one_best_trade` run: `earlyEnd` is the clean
return at `if not filtered_markets`, `done` is falling off the end of the
`try` block with the computed trade amount. -/
inductive RunOutcome : Type where
  | earlyEnd : RunOutcome
  | done : Rat → RunOutcome
deriving DecidableEq

/-- The collaborators of one `Trader.one_best_trade` attempt
(trade.py lines 42-65), over abstract stage payload types.

Modelled from the spec where the source is missing: the Stage A/C
retrieval filters (`filter_events_with_rag`, `filter_markets`) call the
`agents.connectors.chroma` vector store, whose module is not among the
sources; per the design document's external-interface table they are
retrieval-store queries, not Text-Generation Gateway calls, so they are
modelled as abstract fallible functions that issue no `llm.invoke`.
The two `llm.invoke` calls of `source_best_trade` (executor.py lines
158-177) appear as `invoke_superforecaster` and `invoke_one_best_trade`.
`.error` models any raised exception. -/
structure TraderModel (Ev FE Mk Cand : Type) : Type where
  get_all_tradeable_events : Except String (List Ev)
  filter_events_with_rag : List Ev → Except String (List FE)
  map_filtered_events_to_markets : List FE → Except String (List Mk)
  filter_markets : List Mk → Except String (List Cand)
  invoke_superforecaster : Cand → Except String String
  invoke_one_best_trade : String → Except String String
  usdc_balance : Rat

/-- `Executor.source_best_trade` (executor.py lines 158-177) on the first
filtered market: two sequential `llm.invoke` calls.  The second component
counts the Text-Generation Gateway calls issued (a failing call was
still issued). -/
def source_best_trade {Ev FE Mk Cand : Type} (M : TraderModel Ev FE Mk Cand)
    (market : Cand) : Except String String × Nat :=
  match M.invoke_superforecaster market with
  | .error e => (.error e, 1)
  | .ok content =>
    match M.invoke_one_best_trade content with
    | .error e => (.error e, 2)
    | .ok content2 => (.ok content2, 2)

/-- One attempt of `Trader.one_best_trade` (trade.py lines 42-65), i.e.
the body of the `try` block: the five stages in order, the
empty-candidate early return, then scoring and extraction.  The second
component counts the Text-Generation Gateway (`llm.invoke`) calls issued
during the attempt. -/
def one_best_trade_once {Ev FE Mk Cand : Type} (M : TraderModel Ev FE Mk Cand) :
    Except String RunOutcome × Nat :=
  match M.get_all_tradeable_events with
  | .error e => (.error e, 0)
  | .ok events =>
  match M.filter_events_with_rag events with
  | .error e => (.error e, 0)
  | .ok filtered_events =>
  match M.map_filtered_events_to_markets filtered_events with
  | .error e => (.error e, 0)
  | .ok markets =>
  match M.filter_markets markets with
  | .error e => (.error e, 0)
  | .ok filtered_markets =>
  match filtered_markets with
  | [] => (.ok .earlyEnd, 0)
  | market :: _ =>
    match source_best_trade M market with
    | (.error e, k) => (.error e, k)
    | (.ok best_trade, k) =>
      match format_trade_prompt_for_execution best_trade M.usdc_balance with
      | none => (.error "ExtractionError", k)
      | some amount => (.ok (.done amount), k)

/-- The `except Exception: ... self.one_best_trade()` retry loop
(trade.py lines 70-73): on any unhandled exception the whole run is
re-entered from the start.  `Ms k` is the world the `k`-th attempt sees;
`fuel` bounds the recursion depth (the code itself is unbounded, `none`
models non-termination within the given fuel).  On success the result
carries the outcome and the total number of full pipeline traversals. -/
def one_best_trade_retry {Ev FE Mk Cand : Type}
    (Ms : Nat → TraderModel Ev FE Mk Cand) (attempt : Nat) :
    Nat → Option (RunOutcome × Nat)
  | 0 => none
  | fuel + 1 =>
    match (one_best_trade_once (Ms attempt)).1 with
    | .ok o => some (o, attempt + 1)
    | .error _ => one_best_trade_retry Ms (attempt + 1) fuel

/-- C2 (empty-candidate short-circuit): if the stages up to and including
the Stage C secondary filter succeed and `filter_markets` returns the
empty candidate set, the attempt hits the `if not filtered_markets:
return` early exit: the run terminates cleanly at END with **zero**
Text-Generation Gateway calls, and the retry loop reports success after
exactly one traversal — no retry is triggered. -/
theorem empty_candidate_short_circuit (Ev FE Mk Cand : Type)
    (Ms : Nat → TraderModel Ev FE Mk Cand) (fuel : Nat)
    (evs : List Ev) (fes : List FE) (mks : List Mk)
    (h1 : (Ms 0).get_all_tradeable_events = .ok evs)
    (h2 : (Ms 0).filter_events_with_rag evs = .ok fes)
    (h3 : (Ms 0).map_filtered_events_to_markets fes = .ok mks)
    (h4 : (Ms 0).filter_markets mks = .ok []) :
    one_best_trade_once (Ms 0) = (.ok .earlyEnd, 0) ∧
    one_best_trade_retry Ms 0 (fuel + 1) = some (.earlyEnd, 1) := by
  have honce : one_best_trade_once (Ms 0) = (.ok .earlyEnd, 0) := by
    simp only [one_best_trade_once, h1, h2, h3, h4]
  refine ⟨honce, ?_⟩
  simp only [one_best_trade_retry, honce]

/-- A world where every stage succeeds but no market survives the
secondary filter. -/
def emptyCandM : TraderModel Unit Unit Unit Unit :=
  ⟨.ok [], fun _ => .ok [], fun _ => .ok [], fun _ => .ok [],
   fun _ => .error "unreachable", fun _ => .error "unreachable", 0⟩

/-- C2 witness: the short-circuit theorem at the concrete empty-candidate
world. -/
theorem empty_candidate_short_circuit_witness :
    one_best_trade_once emptyCandM = (.ok .earlyEnd, 0) ∧
    one_best_trade_retry (fun _ => emptyCandM) 0 1 = some (.earlyEnd, 1) :=
  empty_candidate_short_circuit Unit Unit Unit Unit (fun _ => emptyCandM) 0
    [] [] [] rfl rfl rfl rfl

/-- C3 (whole-run retry): any attempt ending in an unhandled exception
makes the retry loop re-enter the whole pipeline from START as the next
attempt; in particular one failing attempt followed by a successful one
produces exactly two full traversals and a single DONE outcome. -/
theorem whole_run_retry (Ev FE Mk Cand : Type)
    (Ms : Nat → TraderModel Ev FE Mk Cand) :
    (∀ (attempt fuel : Nat) (e : String),
      (one_best_trade_once (Ms attempt)).1 = .error e →
      one_best_trade_retry Ms attempt (fuel + 1)
        = one_best_trade_retry Ms (attempt + 1) fuel) ∧
    (∀ (fuel : Nat) (e : String) (a : Rat),
      (one_best_trade_once (Ms 0)).1 = .error e →
      (one_best_trade_once (Ms 1)).1 = .ok (.done a) →
      one_best_trade_retry Ms 0 (fuel + 1 + 1) = some (.done a, 2)) := by
  constructor
  · intro attempt fuel e he
    simp only [one_best_trade_retry, he]
  · intro fuel e a h0 h1
    have hstep : one_best_trade_retry Ms 0 (fuel + 1 + 1)
        = one_best_trade_retry Ms 1 (fuel + 1) := by
      simp only [one_best_trade_retry, h0]
    rw [hstep]
    simp only [one_best_trade_retry, h1]

/-- A world whose first attempt dies in Stage A. -/
def failM : TraderModel Unit Unit Unit Unit :=
  ⟨.error "network down", fun _ => .ok [], fun _ => .ok [], fun _ => .ok [],
   fun _ => .error "unreachable", fun _ => .error "unreachable", 0⟩

/-- A world where the full pipeline succeeds: one candidate market, two
successful gateway calls, and a decision text whose extraction yields
`0.15 * 200 = 30`. -/
def okM : TraderModel Unit Unit Unit Unit :=
  ⟨.ok [()], fun _ => .ok [()], fun _ => .ok [()], fun _ => .ok [()],
   fun _ => .ok "rationale", fun _ => .ok "price:0.62,\nsize:0.15,\nside:BUY,", 200⟩

/-- C3 witness: injecting exactly one failure (attempt 0) followed by
success (attempt 1) gives two traversals and one DONE with amount 30. -/
theorem whole_run_retry_witness :
    one_best_trade_retry (fun k => if k = 0 then failM else okM) 0 (0 + 1 + 1)
      = some (.done 30, 2) := by
  apply (whole_run_retry Unit Unit Unit Unit
    (fun k => if k = 0 then failM else okM)).2 0 "network down" 30
  · rfl
  · show (one_best_trade_once okM).1 = .ok (.done 30)
    simp only [one_best_trade_once, okM, source_best_trade, format_trade_example]

/-- A filtered-event document as Stage B reads it: the
`data["metadata"]["markets"]` field, a comma-separated list of child
market ids (executor.py line 146). -/
structure FEvent : Type where
  markets : List Char

/-- The collaborators of Stage B: `GammaMarketClient.get_market`
(gamma.py lines 183-188, whose `response.raise_for_status()` raises on
any HTTP failure — modelled as `.error`) and
`Polymarket.map_api_to_market`. -/
structure GammaModel (Mk Mk' : Type) : Type where
  get_market : List Char → Except String Mk
  map_api_to_market : Mk → Mk'

/-- The inner loop of `Executor.map_filtered_events_to_markets`
(executor.py lines 147-150): resolve each child market id and append the
mapped record.  There is no try/except around `get_market`: its `.error`
ends the loop immediately. -/
def resolve_market_ids {Mk Mk' : Type} (M : GammaModel Mk Mk') :
    List (List Char) → List Mk' → Except String (List Mk')
  | [], markets => .ok markets
  | market_id :: rest, markets =>
    match M.get_market market_id with
    | .error e => .error e
    | .ok market_data =>
      resolve_market_ids M rest (markets ++ [M.map_api_to_market market_data])

/-- `Executor.map_filtered_events_to_markets` (executor.py lines
140-151), accumulator-passing: for each filtered event, split its
`markets` metadata on commas and resolve every child id via the
catalogue.  Any single failing `get_market` propagates to the caller. -/
def map_filtered_events_to_markets {Mk Mk' : Type} (M : GammaModel Mk Mk') :
    List FEvent → List Mk' → Except String (List Mk')
  | [], markets => .ok markets
  | e :: rest, markets =>
    match resolve_market_ids M (splitOnComma e.markets) markets with
    | .error err => .error err
    | .ok markets2 => map_filtered_events_to_markets M rest markets2

/-- A concrete catalogue for the counterexample: id "2" is broken, every
other id resolves to its numeric value. -/
def gammaCEx : GammaModel Nat Nat :=
  ⟨fun market_id => if market_id = ['2'] then .error "HTTPStatusError"
    else .ok (digitsVal market_id), fun m => m⟩

/-- C4 counterexample: one event with children "1,2,3" where only the
lookup of child "2" fails.  The mapping does **not** return the
successfully resolved children `[1, 3]` — the single-record failure
propagates to the caller as an error. -/
theorem map_events_counterexample :
    map_filtered_events_to_markets gammaCEx [⟨"1,2,3".toList⟩] []
      = .error "HTTPStatusError" ∧
    map_filtered_events_to_markets gammaCEx [⟨"1,2,3".toList⟩] []
      ≠ .ok [1, 3] := by
  constructor
  · rfl
  · intro h
    have h2 : (Except.error "HTTPStatusError" : Except String (List Nat))
        = .ok [1, 3] := h
    exact absurd h2 (by simp)

/-- C4 (amended): in `map_filtered_events_to_markets` a failing
`get_market` for any single child record is **fatal**: whenever the
mapping returns a market list, every child lookup of every event must
have succeeded (no child is ever skipped); and when every lookup
succeeds (say `get_market = .ok ∘ f`), the mapping returns the full
in-order list of mapped children of all events. -/
theorem map_events_propagation (Mk Mk' : Type) (M : GammaModel Mk Mk') :
    (∀ (events : List FEvent) (acc l : List Mk'),
      map_filtered_events_to_markets M events acc = .ok l →
      ∀ e ∈ events, ∀ id ∈ splitOnComma e.markets,
        ∃ m, M.get_market id = .ok m) ∧
    (∀ (f : List Char → Mk) (events : List FEvent) (acc : List Mk'),
      (∀ id, M.get_market id = .ok (f id)) →
      map_filtered_events_to_markets M events acc
        = .ok (acc ++ events.flatMap
            (fun e => (splitOnComma e.markets).map
              (fun id => M.map_api_to_market (f id))))) := by
  have hres : ∀ (ids : List (List Char)) (acc l : List Mk'),
      resolve_market_ids M ids acc = .ok l →
      ∀ id ∈ ids, ∃ m, M.get_market id = .ok m := by
    intro ids
    induction ids with
    | nil => intro acc l _ id hid; simp at hid
    | cons i rest ih =>
      intro acc l h id hid
      rw [resolve_market_ids] at h
      cases hg : M.get_market i with
      | error e => rw [hg] at h; exact absurd h (by simp)
      | ok m =>
        rw [hg] at h
        rcases List.mem_cons.mp hid with rfl | hid2
        · exact ⟨m, hg⟩
        · exact ih _ l h id hid2
  have hresok : ∀ (f : List Char → Mk) (ids : List (List Char)) (acc : List Mk'),
      (∀ id, M.get_market id = .ok (f id)) →
      resolve_market_ids M ids acc
        = .ok (acc ++ ids.map (fun id => M.map_api_to_market (f id))) := by
    intro f ids
    induction ids with
    | nil => intro acc _; simp [resolve_market_ids]
    | cons i rest ih =>
      intro acc hok
      rw [resolve_market_ids, hok i]
      show resolve_market_ids M rest (acc ++ [M.map_api_to_market (f i)]) = _
      rw [ih _ hok]
      simp
  constructor
  · intro events
    induction events with
    | nil => intro acc l _ e he; simp at he
    | cons ev rest ih =>
      intro acc l h e he
      rw [map_filtered_events_to_markets] at h
      cases hr : resolve_market_ids M (splitOnComma ev.markets) acc with
      | error err => rw [hr] at h; exact absurd h (by simp)
      | ok acc2 =>
        rw [hr] at h
        rcases List.mem_cons.mp he with rfl | he2
        · exact hres _ acc acc2 hr
        · exact ih acc2 l h e he2
  · intro f events
    induction events with
    | nil => intro acc _; simp [map_filtered_events_to_markets]
    | cons ev rest ih =>
      intro acc hok
      rw [map_filtered_events_to_markets, hresok f _ acc hok]
      show map_filtered_events_to_markets M rest
          (acc ++ (splitOnComma ev.markets).map (fun id => M.map_api_to_market (f id))) = _
      rw [ih _ hok]
      simp

/-- A fully healthy catalogue: every id resolves to its numeric value. -/
def gammaOk : GammaModel Nat Nat := ⟨fun market_id => .ok (digitsVal market_id), fun m => m⟩

/-- C4 witness for the amended claim: with every lookup succeeding, the
event "7,42" maps to `[7, 42]`. -/
theorem map_events_propagation_witness :
    map_filtered_events_to_markets gammaOk [⟨"7,42".toList⟩] []
      = .ok ([] ++ [FEvent.mk "7,42".toList].flatMap
          (fun e => (splitOnComma e.markets).map
            (fun id => gammaOk.map_api_to_market (digitsVal id)))) :=
  (map_events_propagation Nat Nat gammaOk).2 digitsVal
    [⟨"7,42".toList⟩] [] (fun _ => rfl)
